import Mathlib

/-!
Verification of the favicon generator `gen_favicon.py`.

Python strings are modelled as lists of characters (`Str`), Python's
`in`/`endswith` as list infix/suffix, machine integers as `Int`/`Nat`
(no overflow is reachable), and the network/filesystem effects of `main`
as explicit parameters and result values.
-/

namespace GenFavicon

/-- Python strings, modelled as lists of characters. -/
abbrev Str := List Char

/-- Model of `str.lower()` (ASCII case folding, which is all URLs use). -/
def lower (s : Str) : Str := s.map Char.toLower

/-- `IMG_EXTS` from the source. -/
def IMG_EXTS : List Str := [".png", ".jpg", ".jpeg", ".webp", ".svg"].map String.toList

/-- `RASTER_PREF` from the source. -/
def RASTER_PREF : List Str := [".png", ".jpg", ".jpeg", ".webp"].map String.toList

/-- Keyword bonus table of `score_url` (first loop). -/
def KW_TBL : List (Str × Int) :=
  [("cybersecurity".toList, 12), ("cyber".toList, 10), ("badge".toList, 8),
   ("merit".toList, 6), ("emblem".toList, 6)]

/-- Keyword penalty table of `score_url` (second loop). -/
def PEN_TBL : List (Str × Int) :=
  [("fondo".toList, -20), ("blanco".toList, -10), ("liso".toList, -8),
   ("background".toList, -12), ("hero".toList, -8), ("logo".toList, -15),
   ("desktop@2x".toList, -10)]

/-- Hosting-hint bonus table of `score_url` (third loop). -/
def HOST_TBL : List (Str × Int) :=
  [("wp-content".toList, 2), ("uploads".toList, 2), ("cdn".toList, 2),
   ("scouting.org".toList, 1)]

/-- One keyword loop of `score_url`: `for kw, pts in tbl: if kw in l: score += pts`. -/
def addTbl (l : Str) (tbl : List (Str × Int)) (score : Int) : Int :=
  tbl.foldl (fun sc p => if p.1 <:+: l then sc + p.2 else sc) score

/-- The loop `for idx, ext in enumerate(RASTER_PREF[::-1], start=1)`: running
index paired with the remaining extensions. -/
def fmtAddAux (l : Str) : Nat → List Str → Int → Int
  | _, [], score => score
  | idx, e :: es, score =>
      fmtAddAux l (idx + 1) es (if e <:+ l then score + 10 + (idx : Int) else score)

/-- Format-bonus loop of `score_url` over the reversed raster preference list. -/
def fmtAdd (l : Str) (score : Int) : Int := fmtAddAux l 1 RASTER_PREF.reverse score

/-- The `l.endswith(".svg")` bonus of `score_url`. -/
def svgAdd (l : Str) (score : Int) : Int :=
  if ".svg".toList <:+ l then score + 5 else score

/-- Size-hint tokens of `score_url`, paired with their numeric value. -/
def SIZE_HINTS : List (Str × Nat) :=
  [("2048".toList, 2048), ("1536".toList, 1536), ("1024".toList, 1024),
   ("768".toList, 768), ("512".toList, 512), ("256".toList, 256), ("128".toList, 128)]

/-- Size-hint loop of `score_url`: first matching token adds `int(int(sz)/128)`
and the loop breaks. -/
def sizeAdd (l : Str) (score : Int) : Int :=
  match SIZE_HINTS.find? (fun p => decide (p.1 <:+: l)) with
  | some p => score + (Int.ofNat (p.2 / 128))
  | none => score

/-- Body of `score_url` applied to the lowercased URL. -/
def scoreOfLower (l : Str) : Int :=
  sizeAdd l (svgAdd l (fmtAdd l (addTbl l HOST_TBL (addTbl l PEN_TBL (addTbl l KW_TBL 0)))))

/-- `score_url` from the source: lowercase the URL, then run the scoring loops. -/
def score_url (url : Str) : Int := scoreOfLower (lower url)

/-- `bad_keywords` of `main`'s selection block. -/
def bad_keywords : List Str :=
  ["fondo", "blanco", "liso", "background", "hero", "logo",
   "scouting-america-logo"].map String.toList

/-- `any(b in lu for b in bad_keywords)`. -/
def isBlocked (lu : Str) : Bool := bad_keywords.any (fun b => decide (b <:+: lu))

/-- `any(lu.endswith(ext) for ext in RASTER_PREF)`. -/
def isRasterUrl (lu : Str) : Bool := RASTER_PREF.any (fun e => decide (e <:+ lu))

/-- Predicate of selection pass 1: not blocked, contains "cyber", raster. -/
def pass1P (u : Str) : Bool :=
  let lu := lower u
  !isBlocked lu && decide ("cyber".toList <:+: lu) && isRasterUrl lu

/-- Predicate of selection pass 2: not blocked, contains "badge" or "merit", raster. -/
def pass2P (u : Str) : Bool :=
  let lu := lower u
  !isBlocked lu && (decide ("badge".toList <:+: lu) || decide ("merit".toList <:+: lu)) &&
    isRasterUrl lu

/-- Predicate of selection pass 3: not blocked, raster. -/
def pass3P (u : Str) : Bool :=
  let lu := lower u
  !isBlocked lu && isRasterUrl lu

/-- The four selection passes of `main` (lines 147-180): first match of the
earliest satisfiable pass, falling back to `candidates[0]`. -/
def select (cs : List Str) : Option Str :=
  match cs.find? pass1P with
  | some u => some u
  | none =>
    match cs.find? pass2P with
    | some u => some u
    | none =>
      match cs.find? pass3P with
      | some u => some u
      | none => cs.head?

/-- `any(u.lower().endswith(ext) for ext in IMG_EXTS)`: the discovery filter. -/
def hasImgExt (u : Str) : Bool := IMG_EXTS.any (fun e => decide (e <:+ lower u))

/-- The uniquify-and-filter loop of `find_candidate_image_urls` (lines 81-88):
`acc` is the `dedup` list built so far (the `seen` set holds the same URLs). -/
def dedupFilterAux : List Str → List Str → List Str
  | acc, [] => acc
  | acc, u :: us =>
    if hasImgExt u = false then dedupFilterAux acc us
    else if u ∈ acc then dedupFilterAux acc us
    else dedupFilterAux (acc ++ [u]) us

/-- Comparator of `dedup.sort(key=score_url, reverse=True)`: a stable sort
by descending score. -/
def scoreLe (a b : Str) : Bool := score_url b ≤ score_url a

/-- `find_candidate_image_urls` (lines 80-91), with the HTML extraction
abstracted into the input list of extracted references: uniquify, filter by
extension, and stable-sort by descending heuristic score. -/
def find_candidate_image_urls (refs : List Str) : List Str :=
  (dedupFilterAux [] refs).mergeSort scoreLe

/-- Characters stripped by Python's `str.strip()`. -/
def PY_WS : List Char := [' ', '\t', '\n', '\r', '\x0b', '\x0c']

/-- Whitespace test used by `str.strip()`. -/
def isPyWs (c : Char) : Bool := PY_WS.contains c

/-- Model of `str.strip()`: remove leading and trailing whitespace. -/
def pyStrip (s : Str) : Str := ((s.dropWhile isPyWs).reverse.dropWhile isPyWs).reverse

/-- Model of Python `str.split(sep)` for a one-character separator: split at
every occurrence, keeping empty pieces (`"".split(",") == [""]`). -/
def splitOnChar (c : Char) : Str → List Str
  | [] => [[]]
  | x :: xs =>
    if x = c then [] :: splitOnChar c xs
    else
      match splitOnChar c xs with
      | [] => [[x]]
      | y :: ys => (x :: y) :: ys

/-- `parse_srcset` (lines 25-31): split on commas, and for each part take
`part.strip().split(" ")[0]`, keeping it only when non-empty. -/
def parse_srcset (v : Str) : List Str :=
  (splitOnChar ',' v).filterMap (fun part =>
    let url := (pyStrip part).takeWhile (fun c => c ≠ ' ')
    if url.isEmpty then none else some url)

/-- Scheme characters accepted by CPython's `urlsplit` after the leading
letter: ASCII letters, digits, `+`, `-`, `.`. -/
def schemeChar (c : Char) : Bool := c.isAlphanum || c == '+' || c == '-' || c == '.'

/-- The `scheme:` split of CPython's `urlsplit`: when a `:` is present and
everything before it is a leading ASCII letter followed by scheme characters,
return the lowercased scheme and the remainder; otherwise no scheme. -/
def splitScheme (u : Str) : Str × Str :=
  let pre := u.takeWhile (fun c => c ≠ ':')
  match pre with
  | [] => ([], u)
  | c :: cs =>
    if pre.length < u.length && c.isAlpha && cs.all schemeChar then
      (lower pre, u.drop (pre.length + 1))
    else ([], u)

/-- The `//netloc` split of `urlsplit`: when the remainder starts with `//`,
drop the authority, which extends to the next `/`, `?` or `#` (so a URL such
as `http://cdn.x.svg` has an empty path). -/
def stripNetloc (u : Str) : Str :=
  match u with
  | '/' :: '/' :: rest => rest.dropWhile (fun c => c ≠ '/' && c ≠ '?' && c ≠ '#')
  | _ => u

/-- The schemes for which `urlparse` splits `;`-parameters off the path
(CPython's `uses_params`, the empty scheme included). -/
def USES_PARAMS : List Str :=
  ["", "ftp", "hdl", "prospero", "http", "imap", "https", "shttp", "rtsp",
   "rtspu", "sip", "sips", "mms", "sftp", "tel"].map String.toList

/-- CPython's `_splitparams`, reached only when the path contains `;`: cut
the parameters off the last `/`-segment when that segment has a `;` (or off
the whole path when it has no `/`), keeping the path before the first such
`;`. -/
def splitParams (p : Str) : Str :=
  if ('/' : Char) ∈ p then
    let seg := (p.reverse.takeWhile (fun c => c ≠ '/')).reverse
    if (';' : Char) ∈ seg then
      p.take (p.length - seg.length) ++ seg.takeWhile (fun c => c ≠ ';')
    else p
  else p.takeWhile (fun c => c ≠ ';')

/-- `urlparse(u).path`: strip the scheme and authority as `urlsplit` does,
cut the fragment (first `#`) and query (first `?`), and split `;`-parameters
off the last segment when the scheme uses them. -/
def urlPath (u : Str) : Str :=
  let s := splitScheme u
  let afterNet := stripNetloc s.2
  let path := (afterNet.takeWhile (fun c => c ≠ '#')).takeWhile (fun c => c ≠ '?')
  if s.1 ∈ USES_PARAMS ∧ (';' : Char) ∈ path then splitParams path else path

/-- The final `/`-separated component of a path. -/
def baseName (p : Str) : Str := (p.reverse.takeWhile (fun c => c ≠ '/')).reverse

/-- Model of `os.path.splitext(b)[1]`: the suffix from the last dot after the
last `/`, empty when the name has no dot or when every character before the
last dot is a dot. -/
def splitextExt (b : Str) : Str :=
  let afterRev := b.reverse.takeWhile (fun c => c ≠ '.')
  if afterRev.length = b.length then []
  else
    let stem := b.take (b.length - afterRev.length - 1)
    if stem.all (fun c => c = '.') then [] else '.' :: afterRev.reverse

/-- `os.path.splitext(urlparse(u).path)[1] or ".img"` as computed by `main`
(lines 186-187 and 201-202): the path extension, with `.img` as the fallback
when the extension is empty. -/
def urlExt (u : Str) : Str :=
  let e := splitextExt (baseName (urlPath u))
  if e.isEmpty then ".img".toList else e

example : urlExt "https://h/a;b.svg".toList = ".img".toList := by decide

example : urlExt "http://cdn.x.svg".toList = ".img".toList := by decide

example : urlExt "https://www.scouting.org/a/b.SVG?x=1#f".toList = ".SVG".toList := by decide

/-- The raster rescue scan of `main` (lines 196-197): first candidate whose
lowercased URL ends in a raster extension. -/
def scanRaster (cs : List Str) : Option Str := cs.find? (fun u => isRasterUrl (lower u))

/-- The vector-substitution block of `main` (lines 193-207): when the chosen
URL's extension is `.svg`, switch to the first raster candidate if any. -/
def substitute (cs : List Str) (chosen : Str) : Str :=
  if lower (urlExt chosen) = ".svg".toList then
    match scanRaster cs with
    | some u => u
    | none => chosen
  else chosen

/-- Bytes persisted and fed to the decode step, with the HTTP download
abstracted as a function `dl` from URL to bytes. -/
def usedBytes (dl : Str → List Nat) (cs : List Str) (chosen : Str) : List Nat :=
  dl (substitute cs chosen)

/-- The post-discovery guard and selection of `main` (lines 139-180):
`raise SystemExit(...)` on an empty candidate list is modelled as an
error result, which aborts the process with a non-zero exit status. -/
def selectStage (cs : List Str) : Except Str Str :=
  match cs with
  | [] => Except.error "No candidate images found on page".toList
  | _ :: _ =>
    match select cs with
    | some u => Except.ok u
    | none => Except.error []

/-- An RGBA pixel, channels in `0..255`. -/
structure RGBA where
  r : Nat
  g : Nat
  b : Nat
  a : Nat

/-- An in-memory image: dimensions plus a pixel function. The Python images
are RGBA after the initial `convert("RGBA")`, so pixels carry four channels. -/
structure Img where
  w : Nat
  h : Nat
  pix : Nat → Nat → RGBA

/-- The fully transparent pixel. -/
def transparent : RGBA := ⟨0, 0, 0, 0⟩

/-- `Image.new("RGBA", (side, side), (0,0,0,0))`. -/
def newImg (side : Nat) (c : RGBA) : Img := ⟨side, side, fun _ _ => c⟩

/-- `img.crop((left, top, right, bottom))` for an in-bounds box. -/
def crop (img : Img) (left top right bottom : Nat) : Img :=
  ⟨right - left, bottom - top, fun x y => img.pix (left + x) (top + y)⟩

/-- Pixel-center rasterization of the filled ellipse drawn by
`ImageDraw.ellipse((0, 0, side-1, side-1), fill=255)`: the pixel at `(x, y)`
is covered when its center lies in the disk inscribed in the side-length
square. -/
def inDisk (side x y : Nat) : Prop :=
  ((2 * x + 1 : Int) - side) ^ 2 + ((2 * y + 1 : Int) - side) ^ 2 ≤ (side : Int) ^ 2

instance (side x y : Nat) : Decidable (inDisk side x y) := by
  unfold inDisk; infer_instance

/-- The circular `L`-mode mask built in `to_square_rgba`: 255 inside the
inscribed disk, 0 outside. -/
def circleMask (side : Nat) (x y : Nat) : Nat := if inDisk side x y then 255 else 0

/-- `base.paste(top, (0, 0), mask)` with an `L`-mode mask: per-channel blend
`(top*m + base*(255-m)) / 255`. -/
def pasteMask (base top : Img) (mask : Nat → Nat → Nat) : Img :=
  ⟨base.w, base.h, fun x y =>
    let m := mask x y
    let t := top.pix x y
    let b := base.pix x y
    ⟨(t.r * m + b.r * (255 - m)) / 255, (t.g * m + b.g * (255 - m)) / 255,
     (t.b * m + b.b * (255 - m)) / 255, (t.a * m + b.a * (255 - m)) / 255⟩⟩

/-- The translucent gold ring color `(255, 215, 0, 180)`. -/
def ringColor : RGBA := ⟨255, 215, 0, 180⟩

/-- Pixel-center rasterization of the ring stroke drawn by
`ellipse((1, 1, side-2, side-2), outline=ringColor, width=w)`: the annulus
between the outer radius `(side-2)/2` and `w` pixels inward. -/
def inRing (side width x y : Nat) : Prop :=
  ((2 * x + 1 : Int) - side) ^ 2 + ((2 * y + 1 : Int) - side) ^ 2 ≤ ((side : Int) - 2) ^ 2 ∧
  ((side : Int) - 2 - 2 * width) ^ 2 ≤
    ((2 * x + 1 : Int) - side) ^ 2 + ((2 * y + 1 : Int) - side) ^ 2

instance (side width x y : Nat) : Decidable (inRing side width x y) := by
  unfold inRing; infer_instance

/-- The ring overlay image of `to_square_rgba`. -/
def ringImg (side width : Nat) : Img :=
  ⟨side, side, fun x y => if inRing side width x y then ringColor else transparent⟩

/-- `Image.alpha_composite(dst, src)`: standard straight-alpha over-compositing,
`ao = as + ad*(255-as)/255`. -/
def alphaComposite (dst src : Img) : Img :=
  ⟨dst.w, dst.h, fun x y =>
    let s := src.pix x y
    let d := dst.pix x y
    let ao := s.a + d.a * (255 - s.a) / 255
    if ao = 0 then transparent
    else
      ⟨(s.r * s.a + d.r * (d.a * (255 - s.a) / 255)) / ao,
       (s.g * s.a + d.g * (d.a * (255 - s.a) / 255)) / ao,
       (s.b * s.a + d.b * (d.a * (255 - s.a) / 255)) / ao, ao⟩⟩

/-- `to_square_rgba` (lines 100-131): center-crop to a square of side
`min(w, h)`, apply the inscribed-circle alpha mask onto a transparent base,
and composite the gold ring of stroke width `max(1, side // 32)` on top.
The initial mode conversion is the identity in this RGBA pixel model. -/
def to_square_rgba (img : Img) : Img :=
  let w := img.w
  let h := img.h
  let side := min w h
  let left := (w - side) / 2
  let top := (h - side) / 2
  let img_cropped := crop img left top (left + side) (top + side)
  let base := pasteMask (newImg side transparent) img_cropped (circleMask side)
  let ring := ringImg side (max 1 (side / 32))
  alphaComposite base ring

theorem addTbl_cons (l : Str) (p : Str × Int) (ps : List (Str × Int)) (s : Int) :
    addTbl l (p :: ps) s = addTbl l ps (if p.1 <:+: l then s + p.2 else s) := rfl

theorem addTbl_shift (l : Str) (tbl : List (Str × Int)) (s : Int) :
    addTbl l tbl s = s + addTbl l tbl 0 := by
  induction tbl generalizing s with
  | nil => simp [addTbl]
  | cons p ps ih =>
    rw [addTbl_cons, addTbl_cons]
    by_cases h : p.1 <:+: l
    · rw [if_pos h, if_pos h, ih (s + p.2), ih (0 + p.2)]; ring
    · rw [if_neg h, if_neg h, ih s]

theorem fmtAddAux_shift (l : Str) (es : List Str) (i : Nat) (s : Int) :
    fmtAddAux l i es s = s + fmtAddAux l i es 0 := by
  induction es generalizing i s with
  | nil => simp [fmtAddAux]
  | cons e es ih =>
    simp only [fmtAddAux]
    by_cases h : e <:+ l
    · rw [if_pos h, if_pos h, ih (i + 1) (s + 10 + (i : Int)), ih (i + 1) (0 + 10 + (i : Int))]
      ring
    · rw [if_neg h, if_neg h, ih (i + 1) s]

theorem fmtAdd_shift (l : Str) (s : Int) : fmtAdd l s = s + fmtAdd l 0 :=
  fmtAddAux_shift l RASTER_PREF.reverse 1 s

theorem svgAdd_shift (l : Str) (s : Int) : svgAdd l s = s + svgAdd l 0 := by
  unfold svgAdd
  by_cases h : ".svg".toList <:+ l
  · rw [if_pos h, if_pos h]; ring
  · rw [if_neg h, if_neg h]; ring

theorem sizeAdd_shift (l : Str) (s : Int) : sizeAdd l s = s + sizeAdd l 0 := by
  unfold sizeAdd
  cases SIZE_HINTS.find? (fun p => decide (p.1 <:+: l)) with
  | none => ring
  | some p => ring

theorem suffix_comparable {p q l : Str} (hp : p <:+ l) (hq : q <:+ l) :
    p <:+ q ∨ q <:+ p := by
  have hp' : p.reverse <+: l.reverse := List.reverse_prefix.mpr hp
  have hq' : q.reverse <+: l.reverse := List.reverse_prefix.mpr hq
  rcases List.prefix_or_prefix_of_prefix hp' hq' with h | h
  · exact Or.inl (List.reverse_prefix.mp h)
  · exact Or.inr (List.reverse_prefix.mp h)

theorem suffix_excl {l p q : Str} (hp : p <:+ l) (hq : q <:+ l)
    (h : ¬(p <:+ q) ∧ ¬(q <:+ p)) : False := by
  rcases suffix_comparable hp hq with h2 | h2
  exacts [h.1 h2, h.2 h2]

theorem RASTER_rev : RASTER_PREF.reverse =
    [".webp".toList, ".jpeg".toList, ".jpg".toList, ".png".toList] := by decide

theorem fmtAdd_png {l : Str} (h : ".png".toList <:+ l) (s : Int) : fmtAdd l s = s + 14 := by
  have h1 : ¬(".webp".toList <:+ l) := fun h2 => suffix_excl h h2 (by decide)
  have h2 : ¬(".jpeg".toList <:+ l) := fun h2 => suffix_excl h h2 (by decide)
  have h3 : ¬(".jpg".toList <:+ l) := fun h2 => suffix_excl h h2 (by decide)
  rw [fmtAdd, RASTER_rev]
  simp only [fmtAddAux]
  rw [if_neg h1, if_neg h2, if_neg h3, if_pos h]
  push_cast
  ring

theorem fmtAdd_jpg {l : Str} (h : ".jpg".toList <:+ l) (s : Int) : fmtAdd l s = s + 13 := by
  have h1 : ¬(".webp".toList <:+ l) := fun h2 => suffix_excl h h2 (by decide)
  have h2 : ¬(".jpeg".toList <:+ l) := fun h2 => suffix_excl h h2 (by decide)
  have h4 : ¬(".png".toList <:+ l) := fun h2 => suffix_excl h h2 (by decide)
  rw [fmtAdd, RASTER_rev]
  simp only [fmtAddAux]
  rw [if_neg h1, if_neg h2, if_pos h, if_neg h4]
  push_cast
  ring

theorem fmtAdd_jpeg {l : Str} (h : ".jpeg".toList <:+ l) (s : Int) : fmtAdd l s = s + 12 := by
  have h1 : ¬(".webp".toList <:+ l) := fun h2 => suffix_excl h h2 (by decide)
  have h3 : ¬(".jpg".toList <:+ l) := fun h2 => suffix_excl h h2 (by decide)
  have h4 : ¬(".png".toList <:+ l) := fun h2 => suffix_excl h h2 (by decide)
  rw [fmtAdd, RASTER_rev]
  simp only [fmtAddAux]
  rw [if_neg h1, if_pos h, if_neg h3, if_neg h4]
  push_cast
  ring

theorem fmtAdd_webp {l : Str} (h : ".webp".toList <:+ l) (s : Int) : fmtAdd l s = s + 11 := by
  have h2 : ¬(".jpeg".toList <:+ l) := fun h2 => suffix_excl h h2 (by decide)
  have h3 : ¬(".jpg".toList <:+ l) := fun h2 => suffix_excl h h2 (by decide)
  have h4 : ¬(".png".toList <:+ l) := fun h2 => suffix_excl h h2 (by decide)
  rw [fmtAdd, RASTER_rev]
  simp only [fmtAddAux]
  rw [if_pos h, if_neg h2, if_neg h3, if_neg h4]
  push_cast
  ring

theorem fmtAdd_of_svg {l : Str} (h : ".svg".toList <:+ l) (s : Int) : fmtAdd l s = s := by
  have h1 : ¬(".webp".toList <:+ l) := fun h2 => suffix_excl h h2 (by decide)
  have h2 : ¬(".jpeg".toList <:+ l) := fun h2 => suffix_excl h h2 (by decide)
  have h3 : ¬(".jpg".toList <:+ l) := fun h2 => suffix_excl h h2 (by decide)
  have h4 : ¬(".png".toList <:+ l) := fun h2 => suffix_excl h h2 (by decide)
  rw [fmtAdd, RASTER_rev]
  simp only [fmtAddAux]
  rw [if_neg h1, if_neg h2, if_neg h3, if_neg h4]

theorem svgAdd_of_not {l : Str} (h : ¬(".svg".toList <:+ l)) (s : Int) : svgAdd l s = s :=
  if_neg h

/-- The score of a URL with the format and vector bonuses removed: keyword,
penalty, hosting and size-hint contributions only. -/
def scoreNoFmt (url : Str) : Int :=
  let l := lower url
  sizeAdd l (addTbl l HOST_TBL (addTbl l PEN_TBL (addTbl l KW_TBL 0)))

theorem scoreNoFmt_shift (u : Str) :
    scoreNoFmt u =
      addTbl (lower u) HOST_TBL (addTbl (lower u) PEN_TBL (addTbl (lower u) KW_TBL 0))
        + sizeAdd (lower u) 0 := by
  unfold scoreNoFmt
  rw [sizeAdd_shift]

/-- C1 (amended): a URL ending in a raster extension receives a format bonus
between 11 and 14 determined by the fixed order png > jpg > jpeg > webp — the
earlier-declared preference receives the higher increment, so `.png` gets the
largest raster bonus (14) and `.webp` the smallest (11) — and a URL ending in
`.svg` receives a flat +5. -/
theorem C1_format_bonus (u : Str) :
    (".png".toList <:+ lower u → score_url u = scoreNoFmt u + 14) ∧
    (".jpg".toList <:+ lower u → score_url u = scoreNoFmt u + 13) ∧
    (".jpeg".toList <:+ lower u → score_url u = scoreNoFmt u + 12) ∧
    (".webp".toList <:+ lower u → score_url u = scoreNoFmt u + 11) ∧
    (".svg".toList <:+ lower u → score_url u = scoreNoFmt u + 5) := by
  refine ⟨fun h => ?_, fun h => ?_, fun h => ?_, fun h => ?_, fun h => ?_⟩
  · have hs : ¬(".svg".toList <:+ lower u) := fun h2 => suffix_excl h h2 (by decide)
    unfold score_url scoreOfLower
    rw [fmtAdd_png h, svgAdd_of_not hs, scoreNoFmt_shift, sizeAdd_shift]
    ring
  · have hs : ¬(".svg".toList <:+ lower u) := fun h2 => suffix_excl h h2 (by decide)
    unfold score_url scoreOfLower
    rw [fmtAdd_jpg h, svgAdd_of_not hs, scoreNoFmt_shift, sizeAdd_shift]
    ring
  · have hs : ¬(".svg".toList <:+ lower u) := fun h2 => suffix_excl h h2 (by decide)
    unfold score_url scoreOfLower
    rw [fmtAdd_jpeg h, svgAdd_of_not hs, scoreNoFmt_shift, sizeAdd_shift]
    ring
  · have hs : ¬(".svg".toList <:+ lower u) := fun h2 => suffix_excl h h2 (by decide)
    unfold score_url scoreOfLower
    rw [fmtAdd_webp h, svgAdd_of_not hs, scoreNoFmt_shift, sizeAdd_shift]
    ring
  · unfold score_url scoreOfLower
    rw [fmtAdd_of_svg h]
    unfold svgAdd
    rw [if_pos h, scoreNoFmt_shift, sizeAdd_shift]
    ring

/-- C1 counterexample: contrary to the claim, `.webp` receives the smallest
raster format bonus (total score 11 for a bare `.webp` URL) while `.png`
receives the largest (14), so a URL ending in `.webp` does not get the
largest raster bonus. -/
theorem C1_counterexample :
    score_url "a.webp".toList = 11 ∧ score_url "a.png".toList = 14 ∧
    score_url "a.webp".toList < score_url "a.png".toList := by decide

theorem C1_witness :
    (".png".toList <:+ lower "a.png".toList) ∧
    score_url "a.png".toList = scoreNoFmt "a.png".toList + 14 :=
  ⟨by decide, (C1_format_bonus ("a.png".toList)).1 (by decide)⟩

/-- C7: scoring is a pure, deterministic function of the URL string — repeated
applications agree — and any two URLs with the same lowercasing (in particular
URLs differing only in letter case) receive identical scores, because the URL
is lowercased before every check. -/
theorem C7_score_pure (u v : Str) :
    score_url u = score_url u ∧ (lower u = lower v → score_url u = score_url v) :=
  ⟨rfl, fun h => by unfold score_url; rw [h]⟩

theorem C7_witness :
    lower "A.PNG".toList = lower "a.png".toList ∧
    score_url "A.PNG".toList = score_url "a.png".toList :=
  ⟨by decide, (C7_score_pure ("A.PNG".toList) ("a.png".toList)).2 (by decide)⟩

/-- C10: keyword bonuses are independent substring checks, so a URL whose
lowercased form contains "cybersecurity" receives both the +12 bonus and the
+10 "cyber" bonus — +22 in total — on top of the remaining score components. -/
theorem C10_keyword_overlap (u : Str) (h : "cybersecurity".toList <:+: lower u) :
    score_url u =
      22 + addTbl (lower u) [("badge".toList, 8), ("merit".toList, 6), ("emblem".toList, 6)] 0
        + addTbl (lower u) PEN_TBL 0 + addTbl (lower u) HOST_TBL 0
        + fmtAdd (lower u) 0 + svgAdd (lower u) 0 + sizeAdd (lower u) 0 := by
  have hc : "cyber".toList <:+: lower u :=
    (show "cyber".toList <:+: "cybersecurity".toList by decide).trans h
  unfold score_url scoreOfLower
  have e1 : addTbl (lower u) KW_TBL 0
      = 22 + addTbl (lower u)
          [("badge".toList, 8), ("merit".toList, 6), ("emblem".toList, 6)] 0 := by
    rw [show KW_TBL = ("cybersecurity".toList, (12 : Int)) :: ("cyber".toList, (10 : Int)) ::
        [("badge".toList, (8 : Int)), ("merit".toList, (6 : Int)), ("emblem".toList, (6 : Int))]
      from rfl]
    rw [addTbl_cons, addTbl_cons, if_pos h, if_pos hc,
      addTbl_shift (lower u) _ (0 + 12 + 10)]
    ring
  rw [e1, addTbl_shift (lower u) PEN_TBL, addTbl_shift (lower u) HOST_TBL,
    fmtAdd_shift, svgAdd_shift, sizeAdd_shift]

theorem C10_witness :
    ("cybersecurity".toList <:+: lower "cybersecurity.png".toList) ∧
    score_url "cybersecurity.png".toList =
      22 + addTbl (lower "cybersecurity.png".toList)
            [("badge".toList, 8), ("merit".toList, 6), ("emblem".toList, 6)] 0
        + addTbl (lower "cybersecurity.png".toList) PEN_TBL 0
        + addTbl (lower "cybersecurity.png".toList) HOST_TBL 0
        + fmtAdd (lower "cybersecurity.png".toList) 0
        + svgAdd (lower "cybersecurity.png".toList) 0
        + sizeAdd (lower "cybersecurity.png".toList) 0 :=
  ⟨by decide, C10_keyword_overlap ("cybersecurity.png".toList) (by decide)⟩

/-- C2: selection applies the blocklist and then ordered preference passes;
when no candidate contains "cyber" but some non-blocked raster candidate
contains "badge" or "merit", selection returns exactly the first pass-2
match — pass 1 cannot fire, and passes 3 and 4 are never reached. -/
theorem C2_selection_pass2 (cs : List Str)
    (h1 : ∀ u ∈ cs, ¬("cyber".toList <:+: lower u))
    (h2 : ∃ u ∈ cs, pass2P u = true) :
    select cs = cs.find? pass2P ∧ ∃ u, cs.find? pass2P = some u ∧ select cs = some u := by
  have hp1 : cs.find? pass1P = none := by
    rw [List.find?_eq_none]
    intro x hx hpx
    simp only [pass1P, Bool.and_eq_true, decide_eq_true_eq] at hpx
    exact h1 x hx hpx.1.2
  have hs : (cs.find? pass2P).isSome = true := List.find?_isSome.mpr h2
  obtain ⟨u, hu⟩ := Option.isSome_iff_exists.mp hs
  have hsel : select cs = some u := by
    unfold select
    rw [hp1, hu]
  rw [hu]
  exact ⟨hsel, u, rfl, hsel⟩

theorem C2_witness :
    (∀ u ∈ ["http://x/merit-badge.png".toList], ¬("cyber".toList <:+: lower u)) ∧
    (∃ u ∈ ["http://x/merit-badge.png".toList], pass2P u = true) ∧
    select ["http://x/merit-badge.png".toList] =
      List.find? pass2P ["http://x/merit-badge.png".toList] :=
  ⟨by decide, by decide,
   (C2_selection_pass2 ["http://x/merit-badge.png".toList] (by decide) (by decide)).1⟩

/-- C3: when the chosen URL's extension is `.svg`, the substitution scan picks
the first raster URL of the ranked candidate list if one exists anywhere in
it, and the bytes downloaded, persisted and used afterwards are that raster
URL's bytes; with no raster candidate, the vector bytes proceed unchanged. -/
theorem C3_vector_substitution (dl : Str → List Nat) (cs : List Str) (c : Str)
    (hext : lower (urlExt c) = ".svg".toList) :
    ((∃ r ∈ cs, isRasterUrl (lower r) = true) →
      ∃ u, scanRaster cs = some u ∧ substitute cs c = u ∧ usedBytes dl cs c = dl u) ∧
    ((∀ r ∈ cs, isRasterUrl (lower r) = false) →
      substitute cs c = c ∧ usedBytes dl cs c = dl c) := by
  constructor
  · intro hex
    have hs : (scanRaster cs).isSome = true := by
      unfold scanRaster
      rw [List.find?_isSome]
      exact hex
    obtain ⟨u, hu⟩ := Option.isSome_iff_exists.mp hs
    refine ⟨u, hu, ?_, ?_⟩
    · unfold substitute
      rw [if_pos hext, hu]
    · unfold usedBytes substitute
      rw [if_pos hext, hu]
  · intro hnone
    have hn : scanRaster cs = none := by
      unfold scanRaster
      rw [List.find?_eq_none]
      intro x hx
      simp [hnone x hx]
    constructor
    · unfold substitute
      rw [if_pos hext, hn]
    · unfold usedBytes substitute
      rw [if_pos hext, hn]

theorem C3_witness :
    lower (urlExt "http://h/a.svg".toList) = ".svg".toList ∧
    (∃ u, scanRaster ["http://h/logo.png".toList] = some u ∧
      substitute ["http://h/logo.png".toList] ("http://h/a.svg".toList) = u ∧
      usedBytes (fun _ => []) ["http://h/logo.png".toList] ("http://h/a.svg".toList) =
        (fun _ => ([] : List Nat)) u) :=
  ⟨by decide,
   (C3_vector_substitution (fun _ => []) ["http://h/logo.png".toList]
      ("http://h/a.svg".toList) (by decide)).1 ⟨"http://h/logo.png".toList, by decide, by decide⟩⟩

/-- C9: the vector-substitution scan applies no blocklist — when selection
chose an `.svg` URL (only possible through the pass-4 fallback, which implies
pass 3 found no non-blocked raster), every raster URL the scan can find
contains a blocklist keyword, and it becomes the replacement anyway. -/
theorem C9_substitution_ignores_blocklist (cs : List Str) (c : Str)
    (hsel : select cs = some c)
    (hsvg : ".svg".toList <:+ lower c) :
    (∀ u, scanRaster cs = some u → isBlocked (lower u) = true) ∧
    (lower (urlExt c) = ".svg".toList →
      ∀ u, scanRaster cs = some u → substitute cs c = u) := by
  have t1 : ¬(".png".toList <:+ lower c) := fun h2 => suffix_excl hsvg h2 (by decide)
  have t2 : ¬(".jpg".toList <:+ lower c) := fun h2 => suffix_excl hsvg h2 (by decide)
  have t3 : ¬(".jpeg".toList <:+ lower c) := fun h2 => suffix_excl hsvg h2 (by decide)
  have t4 : ¬(".webp".toList <:+ lower c) := fun h2 => suffix_excl hsvg h2 (by decide)
  have hnr : isRasterUrl (lower c) = false := by
    unfold isRasterUrl
    rw [show RASTER_PREF = [".png".toList, ".jpg".toList, ".jpeg".toList, ".webp".toList]
      from by decide]
    simp only [List.any_cons, List.any_nil, Bool.or_eq_false_iff, decide_eq_false_iff_not]
    exact ⟨t1, t2, t3, ⟨t4, trivial⟩⟩
  have h3 : cs.find? pass3P = none := by
    unfold select at hsel
    cases e1 : cs.find? pass1P with
    | some u =>
      rw [e1] at hsel
      have hp := List.find?_some e1
      simp only [Option.some.injEq] at hsel
      rw [hsel] at hp
      simp only [pass1P, Bool.and_eq_true] at hp
      rw [hp.2] at hnr
      exact absurd hnr (by simp)
    | none =>
      rw [e1] at hsel
      cases e2 : cs.find? pass2P with
      | some u =>
        rw [e2] at hsel
        have hp := List.find?_some e2
        simp only [Option.some.injEq] at hsel
        rw [hsel] at hp
        simp only [pass2P, Bool.and_eq_true] at hp
        rw [hp.2] at hnr
        exact absurd hnr (by simp)
      | none =>
        rw [e2] at hsel
        cases e3 : cs.find? pass3P with
        | some u =>
          rw [e3] at hsel
          have hp := List.find?_some e3
          simp only [Option.some.injEq] at hsel
          rw [hsel] at hp
          simp only [pass3P, Bool.and_eq_true] at hp
          rw [hp.2] at hnr
          exact absurd hnr (by simp)
        | none => rfl
  have hall : ∀ x ∈ cs, ¬(pass3P x = true) := List.find?_eq_none.mp h3
  constructor
  · intro u hscan
    have hscan' := hscan
    unfold scanRaster at hscan'
    have pu : isRasterUrl (lower u) = true := by simpa using List.find?_some hscan'
    have umem : u ∈ cs := List.mem_of_find?_eq_some hscan'
    cases hb : isBlocked (lower u) with
    | true => rfl
    | false =>
      exact absurd (show pass3P u = true by simp [pass3P, hb, pu]) (hall u umem)
  · intro hext u hscan
    unfold substitute
    rw [if_pos hext, hscan]

theorem C9_witness :
    select ["http://x/a.svg".toList, "http://x/fondo.png".toList] =
      some ("http://x/a.svg".toList) ∧
    (".svg".toList <:+ lower "http://x/a.svg".toList) ∧
    (∀ u, scanRaster ["http://x/a.svg".toList, "http://x/fondo.png".toList] = some u →
      isBlocked (lower u) = true) :=
  ⟨by decide, by decide,
   (C9_substitution_ignores_blocklist ["http://x/a.svg".toList, "http://x/fondo.png".toList]
      ("http://x/a.svg".toList) (by decide) (by decide)).1⟩

/-- C8: an empty candidate sequence makes the run fail fatally with the
descriptive message, before any selection result can be produced: the stage
yields an error and never an ok value. -/
theorem C8_empty_candidates_fatal (refs : List Str)
    (h : find_candidate_image_urls refs = []) :
    selectStage (find_candidate_image_urls refs) =
      Except.error "No candidate images found on page".toList ∧
    ∀ u, selectStage (find_candidate_image_urls refs) ≠ Except.ok u := by
  rw [h]
  exact ⟨rfl, fun u h2 => by simp [selectStage] at h2⟩

unseal List.merge List.mergeSort in
theorem C8_witness :
    find_candidate_image_urls ["http://x/page.html".toList] = [] ∧
    selectStage (find_candidate_image_urls ["http://x/page.html".toList]) =
      Except.error "No candidate images found on page".toList :=
  ⟨by decide, (C8_empty_candidates_fatal ["http://x/page.html".toList] (by decide)).1⟩

/-- Specification-side srcset parsing: for each comma-separated entry take
the first token delimited by any whitespace, as the spec's words describe. -/
def parse_srcset_spec (v : Str) : List Str :=
  (splitOnChar ',' v).filterMap (fun part =>
    let url := (pyStrip part).takeWhile (fun c => !isPyWs c)
    if url.isEmpty then none else some url)

theorem filterMap_token (g : Str → Str) (l : List Str) :
    (l.filterMap (fun part => if (g part).isEmpty then none else some (g part)))
      = (l.map g).filter (fun t => !t.isEmpty) := by
  induction l with
  | nil => rfl
  | cons p ps ih =>
    rw [List.filterMap_cons, List.map_cons, List.filter_cons]
    cases h : (g p).isEmpty with
    | true => simpa using ih
    | false => simpa using ih

/-- C6 counterexample: on an entry whose URL is separated from its descriptor
by a tab, the code keeps the whole entry as one token (the inner split is on
the space character only), while the first whitespace-delimited token would
stop at the tab. -/
theorem C6_counterexample :
    parse_srcset "a.png\t2x".toList = ["a.png\t2x".toList] ∧
    parse_srcset_spec "a.png\t2x".toList = ["a.png".toList] ∧
    parse_srcset "a.png\t2x".toList ≠ parse_srcset_spec "a.png\t2x".toList := by decide

/-- C6 (amended): parsing splits the source-set string on commas and returns,
for each comma-separated entry, the first space-delimited token of the
whitespace-stripped entry (not of general whitespace: a tab or newline inside
the entry stays in the token), discarding entries that yield an empty token;
every returned token is non-empty and contains no space character. -/
theorem C6_parse_srcset (v : Str) :
    parse_srcset v =
      ((splitOnChar ',' v).map
        (fun part => (pyStrip part).takeWhile (fun c => c ≠ ' '))).filter
        (fun t => !t.isEmpty) ∧
    ∀ t ∈ parse_srcset v, t ≠ [] ∧ ' ' ∉ t := by
  have e : parse_srcset v =
      ((splitOnChar ',' v).map
        (fun part => (pyStrip part).takeWhile (fun c => c ≠ ' '))).filter
        (fun t => !t.isEmpty) :=
    filterMap_token (fun part => (pyStrip part).takeWhile (fun c => c ≠ ' '))
      (splitOnChar ',' v)
  refine ⟨e, ?_⟩
  intro t ht
  rw [e, List.mem_filter] at ht
  obtain ⟨htm, hne⟩ := ht
  rw [List.mem_map] at htm
  obtain ⟨part, hp, rfl⟩ := htm
  constructor
  · intro h0
    rw [h0] at hne
    simp at hne
  · intro hsp
    have := List.mem_takeWhile_imp hsp
    simp at this

theorem C6_witness :
    ("a.png".toList ∈ parse_srcset "a.png 2x, b.png".toList) ∧
    "a.png".toList ≠ [] ∧ ' ' ∉ "a.png".toList :=
  ⟨by decide, (C6_parse_srcset ("a.png 2x, b.png".toList)).2 ("a.png".toList) (by decide)⟩

/-- Specification-side dedup: keep the first occurrence of each URL, in
first-seen order. -/
def firstSeenDedup : List Str → List Str
  | [] => []
  | u :: us => u :: firstSeenDedup (us.filter (fun v => v ≠ u))
termination_by l => l.length
decreasing_by simp_wf; exact Nat.lt_succ_of_le (List.length_filter_le _ _)

theorem mem_firstSeenDedup (l : List Str) (x : Str) : x ∈ firstSeenDedup l ↔ x ∈ l := by
  induction l using firstSeenDedup.induct with
  | case1 => simp [firstSeenDedup]
  | case2 u us ih =>
    rw [firstSeenDedup]
    simp only [List.mem_cons, ih, List.mem_filter]
    constructor
    · rintro (rfl | ⟨hm, _⟩)
      · exact Or.inl rfl
      · exact Or.inr hm
    · rintro (rfl | hm)
      · exact Or.inl rfl
      · by_cases hx : x = u
        · exact Or.inl hx
        · exact Or.inr ⟨hm, by simpa using hx⟩

theorem nodup_firstSeenDedup (l : List Str) : (firstSeenDedup l).Nodup := by
  induction l using firstSeenDedup.induct with
  | case1 => simp [firstSeenDedup]
  | case2 u us ih =>
    rw [firstSeenDedup]
    rw [List.nodup_cons]
    refine ⟨?_, ih⟩
    intro hm
    rw [mem_firstSeenDedup, List.mem_filter] at hm
    simp at hm

theorem dedupFilterAux_cons (acc : List Str) (u : Str) (us : List Str) :
    dedupFilterAux acc (u :: us) =
      if hasImgExt u = false then dedupFilterAux acc us
      else if u ∈ acc then dedupFilterAux acc us
      else dedupFilterAux (acc ++ [u]) us := rfl

theorem dedupFilterAux_eq (us : List Str) : ∀ acc,
    dedupFilterAux acc us =
      acc ++ firstSeenDedup ((us.filter hasImgExt).filter (fun v => v ∉ acc)) := by
  induction us with
  | nil => intro acc; simp [dedupFilterAux, firstSeenDedup]
  | cons u us ih =>
    intro acc
    by_cases hE : hasImgExt u = true
    · have hcons : (u :: us).filter hasImgExt = u :: us.filter hasImgExt := by
        simp [List.filter_cons, hE]
      by_cases hA : u ∈ acc
      · have hstep : dedupFilterAux acc (u :: us) = dedupFilterAux acc us := by
          rw [dedupFilterAux_cons, if_neg (by simp [hE]), if_pos hA]
        rw [hstep, ih acc, hcons, List.filter_cons]
        simp [hA]
      · have hstep : dedupFilterAux acc (u :: us) = dedupFilterAux (acc ++ [u]) us := by
          rw [dedupFilterAux_cons, if_neg (by simp [hE]), if_neg hA]
        rw [hstep, ih (acc ++ [u]), hcons, List.filter_cons]
        have hkeep : (decide (u ∉ acc)) = true := by simpa using hA
        rw [if_pos hkeep]
        rw [firstSeenDedup]
        have hflt : (us.filter hasImgExt).filter (fun v => v ∉ acc ++ [u]) =
            ((us.filter hasImgExt).filter (fun v => v ∉ acc)).filter (fun v => v ≠ u) := by
          rw [List.filter_filter, List.filter_filter, List.filter_filter]
          apply List.filter_congr
          intro x _
          by_cases h1 : x = u <;> by_cases h2 : x ∈ acc <;> simp [h1, h2]
        rw [hflt]
        simp
    · have hstep : dedupFilterAux acc (u :: us) = dedupFilterAux acc us := by
        rw [dedupFilterAux_cons, if_pos (by simp [hE])]
      have hdrop : (u :: us).filter hasImgExt = us.filter hasImgExt := by
        simp [List.filter_cons, hE]
      rw [hstep, ih acc, hdrop]

/-- C4: discovery output contains only URLs ending (case-insensitively) in a
recognized image extension; duplicates are collapsed so each distinct URL
appears exactly once, keeping first-seen order (the dedup stage equals the
specification-side first-seen dedup of the filtered input); and the unique
list is sorted by descending score by a stable sort that preserves the
dedup order among candidates of equal score. -/
theorem C4_discovery (refs : List Str) :
    (∀ u ∈ find_candidate_image_urls refs, hasImgExt u = true) ∧
    (find_candidate_image_urls refs).Nodup ∧
    (∀ u, u ∈ find_candidate_image_urls refs ↔ u ∈ refs ∧ hasImgExt u = true) ∧
    dedupFilterAux [] refs = firstSeenDedup (refs.filter hasImgExt) ∧
    List.Pairwise (fun a b => score_url b ≤ score_url a) (find_candidate_image_urls refs) ∧
    (∀ a b, [a, b].Sublist (dedupFilterAux [] refs) → score_url a = score_url b →
      [a, b].Sublist (find_candidate_image_urls refs)) := by
  have htr : ∀ a b c : Str, scoreLe a b = true → scoreLe b c = true → scoreLe a c = true := by
    intro a b c h1 h2
    simp only [scoreLe, decide_eq_true_eq] at h1 h2 ⊢
    omega
  have hto : ∀ a b : Str, (scoreLe a b || scoreLe b a) = true := by
    intro a b
    simp only [scoreLe, Bool.or_eq_true, decide_eq_true_eq]
    omega
  have hD : dedupFilterAux [] refs = firstSeenDedup (refs.filter hasImgExt) := by
    rw [dedupFilterAux_eq]
    simp
  have hperm : (find_candidate_image_urls refs).Perm (dedupFilterAux [] refs) :=
    List.mergeSort_perm (dedupFilterAux [] refs) scoreLe
  have hmem : ∀ u, u ∈ find_candidate_image_urls refs ↔ u ∈ refs ∧ hasImgExt u = true := by
    intro u
    rw [hperm.mem_iff, hD, mem_firstSeenDedup, List.mem_filter]
  have hnd : (find_candidate_image_urls refs).Nodup := by
    refine hperm.symm.nodup ?_
    rw [hD]
    exact nodup_firstSeenDedup _
  refine ⟨fun u hu => (hmem u).mp hu |>.2, hnd, hmem, hD, ?_, ?_⟩
  · have := List.sorted_mergeSort htr hto (dedupFilterAux [] refs)
    exact this.imp (fun h => by simpa [scoreLe] using h)
  · intro a b hsub heq
    refine List.sublist_mergeSort htr hto ?_ hsub
    have : scoreLe a b = true := by
      simp only [scoreLe, decide_eq_true_eq]
      omega
    simp [List.pairwise_cons, this]

unseal List.merge List.mergeSort in
theorem C4_witness :
    score_url "b.png".toList = score_url "c.png".toList ∧
    ["b.png".toList, "c.png".toList].Sublist (dedupFilterAux [] ["b.png".toList, "c.png".toList]) ∧
    ["b.png".toList, "c.png".toList].Sublist
      (find_candidate_image_urls ["b.png".toList, "c.png".toList]) :=
  ⟨by decide, by decide,
   (C4_discovery ["b.png".toList, "c.png".toList]).2.2.2.2.2 ("b.png".toList) ("c.png".toList)
     (by decide) (by decide)⟩

theorem ring_sub_disk {side w x y : Nat} (hs : 1 ≤ side) (h : inRing side w x y) :
    inDisk side x y := by
  obtain ⟨h1, h2⟩ := h
  unfold inDisk
  have hc : (1 : Int) ≤ (side : Int) := by exact_mod_cast hs
  nlinarith [h1]

theorem center_inDisk {side : Nat} (hs : 1 ≤ side) : inDisk side (side / 2) (side / 2) := by
  have hd : (2 * ((side / 2 : Nat) : Int) + 1 - (side : Int) = 0) ∨
      (2 * ((side / 2 : Nat) : Int) + 1 - (side : Int) = 1 ∧ 2 ≤ (side : Int)) := by
    omega
  unfold inDisk
  rcases hd with h | ⟨h, h2⟩
  · rw [h]
    positivity
  · rw [h]
    nlinarith [h2]

/-- C5: for an opaque image of positive dimensions, the square transform
returns a buffer of exactly min(W,H) x min(W,H) pixels; every pixel whose
center lies outside the inscribed disk of that square has zero alpha; the
center pixel keeps full, non-zero alpha; and the result is exactly the
center-cropped, circle-masked image with the translucent gold ring of stroke
width max(1, side/32) composited on top. -/
theorem C5_to_square_rgba (img : Img)
    (ho : ∀ x y, (img.pix x y).a = 255)
    (hs : 1 ≤ min img.w img.h) :
    (to_square_rgba img).w = min img.w img.h ∧
    (to_square_rgba img).h = min img.w img.h ∧
    (∀ x y, ¬ inDisk (min img.w img.h) x y → ((to_square_rgba img).pix x y).a = 0) ∧
    ((to_square_rgba img).pix (min img.w img.h / 2) (min img.w img.h / 2)).a = 255 ∧
    to_square_rgba img =
      alphaComposite
        (pasteMask (newImg (min img.w img.h) transparent)
          (crop img ((img.w - min img.w img.h) / 2) ((img.h - min img.w img.h) / 2)
            ((img.w - min img.w img.h) / 2 + min img.w img.h)
            ((img.h - min img.w img.h) / 2 + min img.w img.h))
          (circleMask (min img.w img.h)))
        (ringImg (min img.w img.h) (max 1 (min img.w img.h / 32))) := by
  refine ⟨rfl, rfl, ?_, ?_, rfl⟩
  · intro x y hnd
    have hring : ¬ inRing (min img.w img.h) (max 1 (min img.w img.h / 32)) x y :=
      fun hr => hnd (ring_sub_disk hs hr)
    simp only [to_square_rgba, alphaComposite, pasteMask, ringImg, newImg, circleMask,
      transparent, crop]
    rw [if_neg hring, if_neg hnd]
    simp
  · have hd : inDisk (min img.w img.h) (min img.w img.h / 2) (min img.w img.h / 2) :=
      center_inDisk hs
    simp only [to_square_rgba, alphaComposite, pasteMask, ringImg, newImg, circleMask,
      transparent, crop]
    rw [if_pos hd, ho]
    by_cases hr : inRing (min img.w img.h) (max 1 (min img.w img.h / 32))
        (min img.w img.h / 2) (min img.w img.h / 2)
    · rw [if_pos hr]
      norm_num [ringColor]
    · rw [if_neg hr]
      norm_num

theorem C5_witness :
    (∀ x y, ((Img.mk 3 3 (fun _ _ => ⟨9, 8, 7, 255⟩)).pix x y).a = 255) ∧
    1 ≤ min (Img.mk 3 3 (fun _ _ => ⟨9, 8, 7, 255⟩)).w (Img.mk 3 3 (fun _ _ => ⟨9, 8, 7, 255⟩)).h ∧
    ((to_square_rgba (Img.mk 3 3 (fun _ _ => ⟨9, 8, 7, 255⟩))).pix
      (min 3 3 / 2) (min 3 3 / 2)).a = 255 :=
  ⟨fun _ _ => rfl, by decide,
   (C5_to_square_rgba (Img.mk 3 3 (fun _ _ => ⟨9, 8, 7, 255⟩)) (fun _ _ => rfl)
      (by decide)).2.2.2.1⟩

end GenFavicon
